import Mathlib

/-!
Shallow embedding of the repository file three_tangle.py.

The file defines one Python function, three_tangle, whose nested helpers are
embedded here one by one:

* real_to_complex / complex_to_real : the vector codec.  The Python body is
  z[:len(z)//2] + 1j * z[len(z)//2:] on numpy arrays, so the addition of the
  two halves follows numpy broadcasting; bAdd models that broadcasting for
  one-dimensional arrays (a ValueError is none).
* theoretical_tangle : the closed-form three-tangle polynomial.
* objective : the weighted sum of per-state tangles.
* cons3 : the density-matrix reconstruction residual, including the
  Nc x Nc row buffer whose row assignment raises IndexError when the row
  index reaches Nc (modelled by setRow returning none).
* the multi-start loop of three_tangle itself, with the external solver
  abstracted as an oracle: entry j of the oracle list is some v when the
  solver run for start j returns objective value v, and none when it raises.
  The loop body is embedded exactly: the tangles array starts as np.zeros(N),
  a raised exception leaves the entry untouched (except: pass), and a
  negative entry is overwritten with np.inf before the final np.min.

Real and complex machine numbers are embedded as ℝ and ℂ.
-/

namespace ThreeTangle

open Complex

/-- Elementwise sum of two one-dimensional numpy arrays under broadcasting:
equal lengths add pointwise, a length-one operand is broadcast against the
other operand, and any other length mismatch raises ValueError (none). -/
def bAdd (u v : List ℂ) : Option (List ℂ) :=
  if u.length = v.length then some (List.zipWith (· + ·) u v)
  else if u.length = 1 then some (v.map (fun t => u.getD 0 0 + t))
  else if v.length = 1 then some (u.map (fun t => t + v.getD 0 0))
  else none

/-- Embedding of real_to_complex: z[:len(z)//2] + 1j * z[len(z)//2:].
The two numpy slices are added under broadcasting (bAdd). -/
def real_to_complex (z : List ℝ) : Option (List ℂ) :=
  bAdd ((z.take (z.length / 2)).map (fun (a : ℝ) => (a : ℂ)))
    ((z.drop (z.length / 2)).map (fun (b : ℝ) => Complex.I * (b : ℂ)))

/-- Embedding of complex_to_real: np.concatenate((np.real(z), np.imag(z))). -/
def complex_to_real (z : List ℂ) : List ℝ :=
  z.map Complex.re ++ z.map Complex.im

/-- The complex number a + i*b written by the codec is the pair (a, b). -/
lemma ofReal_add_I_mul (a b : ℝ) : (a : ℂ) + Complex.I * b = ⟨a, b⟩ := by
  apply Complex.ext <;> simp

lemma zipWith_add_map (a b : List ℝ) :
    List.zipWith (· + ·) (a.map (fun (x : ℝ) => (x : ℂ)))
        (b.map (fun (y : ℝ) => Complex.I * (y : ℂ))) =
      List.zipWith (fun (x y : ℝ) => (x : ℂ) + Complex.I * (y : ℂ)) a b := by
  induction a generalizing b with
  | nil => simp
  | cons x a ih =>
    cases b with
    | nil => simp
    | cons y b => simp [ih b]

/-- On an even-length input the two slices have equal length and the
broadcast addition is a plain zip. -/
lemma real_to_complex_even (z : List ℝ) (h : z.length % 2 = 0) :
    real_to_complex z =
      some (List.zipWith (fun (a b : ℝ) => (a : ℂ) + Complex.I * (b : ℂ))
        (z.take (z.length / 2)) (z.drop (z.length / 2))) := by
  have hlen : (z.take (z.length / 2)).length = (z.drop (z.length / 2)).length := by
    simp [List.length_take, List.length_drop]
    omega
  unfold real_to_complex bAdd
  rw [if_pos (by simpa using hlen), zipWith_add_map]

lemma map_re_zip (a b : List ℝ) (h : a.length = b.length) :
    (List.zipWith (fun (x y : ℝ) => (x : ℂ) + Complex.I * (y : ℂ)) a b).map Complex.re = a := by
  induction a generalizing b with
  | nil => simp
  | cons x a ih =>
    cases b with
    | nil => simp at h
    | cons y b =>
      simp only [List.zipWith_cons_cons, List.map_cons, ih b (by simpa using h)]
      simp

lemma map_im_zip (a b : List ℝ) (h : a.length = b.length) :
    (List.zipWith (fun (x y : ℝ) => (x : ℂ) + Complex.I * (y : ℂ)) a b).map Complex.im = b := by
  induction a generalizing b with
  | nil => cases b <;> simp_all
  | cons x a ih =>
    cases b with
    | nil => simp at h
    | cons y b =>
      simp only [List.zipWith_cons_cons, List.map_cons, ih b (by simpa using h)]
      simp

lemma zip_re_im (w : List ℂ) :
    List.zipWith (fun (a b : ℝ) => (a : ℂ) + Complex.I * (b : ℂ))
      (w.map Complex.re) (w.map Complex.im) = w := by
  induction w with
  | nil => simp
  | cons z w ih =>
    simp only [List.map_cons, List.zipWith_cons_cons, ih]
    congr 1
    rw [ofReal_add_I_mul]

/-- Decoding after encoding is the identity on complex vectors. -/
lemma real_to_complex_complex_to_real (w : List ℂ) :
    real_to_complex (complex_to_real w) = some w := by
  have hre : (w.map Complex.re).length = w.length := List.length_map _ _
  have him : (w.map Complex.im).length = w.length := List.length_map _ _
  have hlen : (complex_to_real w).length = 2 * w.length := by
    simp [complex_to_real]; omega
  have hdiv : (complex_to_real w).length / 2 = w.length := by omega
  have htake : (complex_to_real w).take ((complex_to_real w).length / 2) = w.map Complex.re := by
    rw [hdiv, complex_to_real, ← hre, List.take_left]
  have hdrop : (complex_to_real w).drop ((complex_to_real w).length / 2) = w.map Complex.im := by
    rw [hdiv, complex_to_real, ← hre, List.drop_left]
  rw [real_to_complex_even _ (by omega), htake, hdrop, zip_re_im]

/-- Encoding after decoding is the identity on even-length real vectors. -/
lemma complex_to_real_real_to_complex (v : List ℝ) (h : v.length % 2 = 0) :
    (real_to_complex v).map complex_to_real = some v := by
  have hlen : (v.take (v.length / 2)).length = (v.drop (v.length / 2)).length := by
    simp [List.length_take, List.length_drop]; omega
  rw [real_to_complex_even v h, Option.map_some']
  unfold complex_to_real
  rw [map_re_zip _ _ hlen, map_im_zip _ _ hlen, List.take_append_drop]

/-- C8 (amended): real_to_complex on an odd-length real input raises a
numpy broadcasting ValueError exactly when the length is at least 5; on a
length-1 input it silently returns the empty vector and on a length-3 input
a length-2 vector, because a length-1 slice broadcasts. -/
theorem C8_real_to_complex_odd (z : List ℝ) (h : z.length % 2 = 1) :
    real_to_complex z = none ↔ 5 ≤ z.length := by
  have h1 : ((z.take (z.length / 2)).map (fun (a : ℝ) => (a : ℂ))).length
      = z.length / 2 := by
    simp [List.length_take]; omega
  have h2 : ((z.drop (z.length / 2)).map (fun (b : ℝ) => Complex.I * (b : ℂ))).length
      = z.length - z.length / 2 := by
    simp [List.length_drop]
  unfold real_to_complex bAdd
  split_ifs with e1 e2 e3
  · exfalso; rw [h1, h2] at e1; omega
  · rw [h1] at e2
    constructor
    · intro hc; exact hc.elim
    · intro h5; exfalso; omega
  · rw [h2] at e3
    constructor
    · intro hc; exact hc.elim
    · intro h5; exfalso; omega
  · rw [h1] at e2; rw [h2] at e3
    constructor
    · intro _; omega
    · intro _; rfl

/-- C8 counterexample: the claim says every odd-length real input makes
real_to_complex fail, but the length-1 input [1] is odd and the function
returns the empty complex vector instead of failing. -/
theorem C8_counterexample :
    real_to_complex ((1 : ℝ) :: []) = some ([] : List ℂ) ∧
    real_to_complex ((1 : ℝ) :: []) ≠ none := by
  have h0 : real_to_complex ((1 : ℝ) :: []) = some ([] : List ℂ) := rfl
  exact ⟨h0, by rw [h0]; exact Option.some_ne_none _⟩

/-- Witness for C8 at the concrete odd-length-5 input [1,1,1,1,1]. -/
theorem C8_witness :
    ((1 : ℝ) :: 1 :: 1 :: 1 :: 1 :: []).length % 2 = 1 ∧
    (real_to_complex ((1 : ℝ) :: 1 :: 1 :: 1 :: 1 :: []) = none ↔
      5 ≤ ((1 : ℝ) :: 1 :: 1 :: 1 :: 1 :: []).length) :=
  ⟨by decide, C8_real_to_complex_odd _ (by decide)⟩

/-- C4: the vector codec is an exact round-trip pair: decoding then encoding
is the identity on even-length real vectors, and encoding then decoding is
the identity on complex vectors. -/
theorem C4_codec_round_trip (v : List ℝ) (w : List ℂ) (hv : v.length % 2 = 0) :
    (real_to_complex v).map complex_to_real = some v ∧
    real_to_complex (complex_to_real w) = some w :=
  ⟨complex_to_real_real_to_complex v hv, real_to_complex_complex_to_real w⟩

/-- Witness for C4 at the concrete vectors v = [1, 2] and w = [i]. -/
theorem C4_witness :
    ((1 : ℝ) :: 2 :: []).length % 2 = 0 ∧
    ((real_to_complex ((1 : ℝ) :: 2 :: [])).map complex_to_real
        = some ((1 : ℝ) :: 2 :: []) ∧
      real_to_complex (complex_to_real (Complex.I :: [])) = some (Complex.I :: [])) :=
  ⟨by decide, C4_codec_round_trip _ _ (by decide)⟩

/-- Embedding of theoretical_tangle: the closed-form three-tangle polynomial
tau = 4 * |d1 - 2*d2 + 4*d3| over the eight amplitudes phi[0..7]. -/
noncomputable def theoretical_tangle (phi : List ℂ) : ℝ :=
  let g := fun i => phi.getD i 0
  let d1 := g 0 ^ 2 * g 7 ^ 2 + g 1 ^ 2 * g 6 ^ 2 + g 2 ^ 2 * g 5 ^ 2 + g 4 ^ 2 * g 3 ^ 2
  let d2 := g 0 * g 7 * g 3 * g 4 + g 0 * g 7 * g 5 * g 2 + g 0 * g 7 * g 6 * g 1 +
    g 3 * g 4 * g 5 * g 2 + g 3 * g 4 * g 6 * g 1 + g 5 * g 2 * g 6 * g 1
  let d3 := g 0 * g 6 * g 5 * g 3 + g 7 * g 1 * g 2 * g 4
  4 * Complex.abs (d1 - 2 * d2 + 4 * d3)

/-- The GHZ state (|000> + |111>)/sqrt 2 as its 8 computational amplitudes. -/
noncomputable def ghz : List ℂ :=
  ((1 / Real.sqrt 2 : ℝ) : ℂ) :: 0 :: 0 :: 0 :: 0 :: 0 :: 0 ::
    ((1 / Real.sqrt 2 : ℝ) : ℂ) :: []

lemma theoretical_tangle_nonneg (phi : List ℂ) : 0 ≤ theoretical_tangle phi := by
  unfold theoretical_tangle
  positivity

/-- Slice x[j : j + 2*Nc] holding the i-th encoded state vector,
with j = Np + i*2*Nc as in the source (numpy slicing clamps, as drop/take do). -/
def stateSlice (x : List ℝ) (Nc Np i : ℕ) : List ℝ :=
  (x.drop (Np + i * (2 * Nc))).take (2 * Nc)

/-- Embedding of objective: result starts at 0 and the loop over i in
range(Np) adds p[i] * theoretical_tangle(real_to_complex(x[j:j+2*Nc])).
objectiveAux n is result after the first n iterations; a codec ValueError
propagates (none). -/
noncomputable def objectiveAux (x : List ℝ) (Nc Np : ℕ) : ℕ → Option ℝ
  | 0 => some 0
  | n + 1 => (objectiveAux x Nc Np n).bind fun acc =>
      (real_to_complex (stateSlice x Nc Np n)).map fun c =>
        acc + (x.take Np).getD n 0 * theoretical_tangle c

/-- Embedding of objective(x, Nc, Np): the loop runs for all Np states. -/
noncomputable def objective (x : List ℝ) (Nc Np : ℕ) : Option ℝ :=
  objectiveAux x Nc Np Np

lemma objectiveAux_nonneg (x : List ℝ) (Nc Np : ℕ)
    (hw : ∀ i < Np, 0 ≤ (x.take Np).getD i 0) :
    ∀ n, n ≤ Np → ∀ r, objectiveAux x Nc Np n = some r → 0 ≤ r := by
  intro n
  induction n with
  | zero =>
    intro _ r hr
    simp only [objectiveAux, Option.some.injEq] at hr
    exact le_of_eq hr
  | succ n ih =>
    intro hle r hr
    simp only [objectiveAux, Option.bind_eq_some, Option.map_eq_some'] at hr
    obtain ⟨acc, hacc, c, hc, heq⟩ := hr
    subst heq
    exact add_nonneg (ih (by omega) acc hacc)
      (mul_nonneg (hw n (by omega)) (theoretical_tangle_nonneg c))

/-- C10: theoretical_tangle returns a non-negative real for every
8-component complex input (it is 4 times an absolute value), and objective
is non-negative whenever the Np weight entries of the parameter vector are
non-negative. -/
theorem C10_objective_nonneg (phi : List ℂ) (x : List ℝ) (Nc Np : ℕ) (r : ℝ)
    (_hphi : phi.length = 8)
    (hw : ∀ i < Np, 0 ≤ (x.take Np).getD i 0)
    (hr : objective x Nc Np = some r) :
    0 ≤ theoretical_tangle phi ∧ 0 ≤ r :=
  ⟨theoretical_tangle_nonneg phi,
    objectiveAux_nonneg x Nc Np hw Np le_rfl r hr⟩

/-- Witness for C10 at phi = the zero 8-vector, x = [], Nc = Np = 0. -/
theorem C10_witness :
    (List.replicate 8 (0 : ℂ)).length = 8 ∧
    (∀ i < 0, 0 ≤ (([] : List ℝ).take 0).getD i 0) ∧
    objective [] 0 0 = some 0 ∧
    (0 ≤ theoretical_tangle (List.replicate 8 0) ∧ 0 ≤ (0 : ℝ)) :=
  ⟨by decide, fun i hi => absurd hi (by omega), rfl,
    C10_objective_nonneg (List.replicate 8 0) [] 0 0 0 (by decide)
      (fun i hi => absurd hi (by omega)) rfl⟩

/-- C6: theoretical_tangle applied to the GHZ amplitudes equals 1, hence in
particular lies within 1e-6 of 1. -/
theorem C6_ghz_tangle :
    theoretical_tangle ghz = 1 ∧ |theoretical_tangle ghz - 1| ≤ 1 / 1000000 := by
  have h2 : Real.sqrt 2 ^ 2 = 2 := Real.sq_sqrt (by norm_num)
  have key : theoretical_tangle ghz = 1 := by
    simp only [theoretical_tangle, ghz, List.getD_cons_zero, List.getD_cons_succ]
    norm_num
  exact ⟨key, by rw [key]; norm_num⟩

/-- Embedding of the per-start bookkeeping of the multi-start loop.  The
external solver run for one start is abstracted as an oracle outcome
r : Option ℝ (some v = minimize returned objective value v, none = it
raised).  On none, except: pass leaves the np.zeros entry at 0; afterwards
a negative entry is overwritten with np.inf.  Machine infinity is ⊤ in
WithTop ℝ. -/
noncomputable def record (r : Option ℝ) : WithTop ℝ :=
  let t : ℝ := match r with | some v => v | none => 0
  if t < 0 then ⊤ else (t : WithTop ℝ)

/-- Embedding of the loop and final return np.min(tangles) of three_tangle,
with the N solver runs abstracted as the oracle list results.  np.min of an
empty array raises (none). -/
noncomputable def three_tangle (results : List (Option ℝ)) : Option (WithTop ℝ) :=
  match results.map record with
  | [] => none
  | a :: l => some (l.foldl min a)

lemma record_nonneg (r : Option ℝ) : 0 ≤ record r := by
  cases r with
  | none =>
    show 0 ≤ if (0 : ℝ) < 0 then (⊤ : WithTop ℝ) else ((0 : ℝ) : WithTop ℝ)
    norm_num
  | some v =>
    show 0 ≤ if v < 0 then (⊤ : WithTop ℝ) else (v : WithTop ℝ)
    split_ifs with h
    · exact le_top
    · rw [← WithTop.coe_zero, WithTop.coe_le_coe]
      exact le_of_not_lt h

lemma foldl_min_nonneg (l : List (WithTop ℝ)) (a : WithTop ℝ)
    (ha : 0 ≤ a) (hl : ∀ x ∈ l, 0 ≤ x) : 0 ≤ l.foldl min a := by
  induction l generalizing a with
  | nil => exact ha
  | cons b l ih =>
    exact ih (min a b) (le_min ha (hl b (by simp)))
      (fun x hx => hl x (by simp [hx]))

lemma three_tangle_min_nonneg (results : List (Option ℝ)) (m : WithTop ℝ)
    (h : three_tangle results = some m) : 0 ≤ m := by
  unfold three_tangle at h
  cases hmap : results.map record with
  | nil => rw [hmap] at h; exact absurd h (by simp)
  | cons a l =>
    rw [hmap] at h
    have hm : m = l.foldl min a := by simpa using h.symm
    subst hm
    have hmem : ∀ x ∈ a :: l, 0 ≤ x := by
      intro x hx
      have : x ∈ results.map record := by rw [hmap]; exact hx
      obtain ⟨r, _, hr⟩ := List.mem_map.mp this
      exact hr ▸ record_nonneg r
    exact foldl_min_nonneg l a (hmem a (by simp)) (fun x hx => hmem x (by simp [hx]))

/-- C3: whatever the solver does on each of the N starts, the value
returned by three_tangle is either a non-negative real or the sentinel
infinity (⊤); it is never negative. -/
theorem C3_result_nonneg (results : List (Option ℝ)) (m : WithTop ℝ)
    (h : three_tangle results = some m) : 0 ≤ m :=
  three_tangle_min_nonneg results m h

/-- Witness for C3 at the single-start oracle [some 1]. -/
theorem C3_witness :
    three_tangle (some 1 :: []) = some (1 : WithTop ℝ) ∧ 0 ≤ (1 : WithTop ℝ) := by
  have hev : three_tangle (some 1 :: []) = some (1 : WithTop ℝ) := by
    norm_num [three_tangle, record]
  exact ⟨hev, C3_result_nonneg _ _ hev⟩

/-- C7: a start whose recorded solver value is negative is overwritten with
the sentinel infinity before the reduction, and consequently the minimum
returned by three_tangle is never negative. -/
theorem C7_negative_discarded (v : ℝ) (results : List (Option ℝ)) (m : WithTop ℝ)
    (hv : v < 0) :
    record (some v) = ⊤ ∧ (three_tangle results = some m → 0 ≤ m) := by
  refine ⟨?_, three_tangle_min_nonneg results m⟩
  unfold record
  exact if_pos hv

/-- Witness for C7 at the concrete negative solver value -1. -/
theorem C7_witness :
    (-1 : ℝ) < 0 ∧
    (record (some (-1)) = ⊤ ∧
      (three_tangle (some (-1) :: []) = some ⊤ → 0 ≤ (⊤ : WithTop ℝ))) :=
  ⟨by norm_num, C7_negative_discarded (-1) _ ⊤ (by norm_num)⟩

/-- C1 records the code bug it uncovers: when the solver raises on a start,
except: pass leaves the np.zeros entry at 0, so the recorded value is 0 and
not the claimed sentinel infinity; the failed start then contributes its 0
to the final minimum (here dragging it below the successful start at 5),
while the exception itself is indeed swallowed. -/
theorem C1_exception_records_zero :
    record none = (0 : WithTop ℝ) ∧ record none ≠ ⊤ ∧
    three_tangle (none :: some 5 :: []) = some (0 : WithTop ℝ) := by
  have h0 : record none = (0 : WithTop ℝ) := by norm_num [record]
  refine ⟨h0, by rw [h0]; exact WithTop.zero_ne_top, ?_⟩
  have h5 : record (some 5) = ((5 : ℝ) : WithTop ℝ) := by norm_num [record]
  have hmin : min (0 : WithTop ℝ) ((5 : ℝ) : WithTop ℝ) = (0 : WithTop ℝ) := by
    apply min_eq_left
    rw [← WithTop.coe_zero, WithTop.coe_le_coe]
    norm_num
  simp [three_tangle, h0, h5, hmin]

/-- C2 records the same code bug: with N = 1 and the solver raising on the
only start, every start has failed, yet three_tangle returns 0 rather than
the sentinel infinity (it does not raise). -/
theorem C2_all_fail_returns_zero :
    three_tangle (none :: []) = some (0 : WithTop ℝ) ∧
    some (0 : WithTop ℝ) ≠ some (⊤ : WithTop ℝ) := by
  constructor
  · norm_num [three_tangle, record]
  · simp [WithTop.zero_ne_top]

/-- The buffer c = np.zeros((Nc, Nc), dtype=complex) of cons3. -/
def zeros2 (Nc : ℕ) : List (List ℂ) := List.replicate Nc (List.replicate Nc 0)

/-- Row assignment c[i] = row of cons3: numpy raises IndexError (none) when
the row index i is not below the number Nc of rows.  The rows written by
cons3 always have length exactly Nc, so no value broadcasting occurs. -/
def setRow (c : List (List ℂ)) (i : ℕ) (row : List ℂ) : Option (List (List ℂ)) :=
  if i < c.length then some (c.set i row) else none

/-- First loop of cons3 after n iterations: for i in range(Np) the row
c[i] = real_to_complex(x[j:j+2*Nc]) is written into the buffer; a codec
ValueError or a row IndexError propagates as none. -/
def buildC (x : List ℝ) (Nc Np : ℕ) : ℕ → Option (List (List ℂ))
  | 0 => some (zeros2 Nc)
  | n + 1 => (buildC x Nc Np n).bind fun c =>
      (real_to_complex (stateSlice x Nc Np n)).bind fun row => setRow c n row

/-- Embedding of np.conj on a complex scalar. -/
def npConj (z : ℂ) : ℂ := ⟨z.re, -z.im⟩

lemma npConj_eq_star (z : ℂ) : npConj z = (starRingEnd ℂ) z := by
  apply Complex.ext <;> simp [npConj]

/-- Inner accumulation of cons3 for entry (i, j): res starts at 0, adds
p[k] * c[k,i] * conj(c[k,j]) for k in range(Np) and subtracts rho[i,j]. -/
def resEntry (p : List ℝ) (c : List (List ℂ)) (rho : ℕ → ℕ → ℂ) (Np i j : ℕ) : ℂ :=
  (((List.range Np).map fun k => ((p.getD k 0 : ℝ) : ℂ) * (c.getD k []).getD i 0 *
      npConj ((c.getD k []).getD j 0)).sum) - rho i j

/-- Embedding of cons3: fill the row buffer, then emit
reals[i*Nc+j] = Re res and imags[i*Nc+j] = Im res for i, j in range(Nc),
returning np.concatenate((reals, imags)).  The flat row-major layout
reals[i*Nc+j] is the flatMap over i of the map over j. -/
def cons3 (rho : ℕ → ℕ → ℂ) (x : List ℝ) (Nc Np : ℕ) : Option (List ℝ) :=
  (buildC x Nc Np Np).map fun c =>
    ((List.range Nc).flatMap fun i => (List.range Nc).map fun j =>
        (resEntry (x.take Np) c rho Np i j).re) ++
    ((List.range Nc).flatMap fun i => (List.range Nc).map fun j =>
        (resEntry (x.take Np) c rho Np i j).im)

/-- Parameter vector built from Np weights and Np states through the codec,
exactly as the random starting point x0 is assembled in three_tangle. -/
def encode (ps : List ℝ) (cs : List (List ℂ)) : List ℝ :=
  ps ++ (cs.map complex_to_real).flatten

lemma getD_eq_get {α : Type} (l : List α) (d : α) {n : ℕ} (h : n < l.length) :
    l.getD n d = l[n] := by
  simp [List.getD_eq_getElem?_getD, List.getElem?_eq_getElem h]

lemma length_stateSlice (x : List ℝ) (Nc Np n : ℕ)
    (hx : x.length = Np + 2 * Nc * Np) (hn : n < Np) :
    (stateSlice x Nc Np n).length = 2 * Nc := by
  simp only [stateSlice, List.length_take, List.length_drop, hx]
  have : n * (2 * Nc) + 2 * Nc ≤ 2 * Nc * Np := by nlinarith
  omega

lemma real_to_complex_length (z : List ℝ) (Nc : ℕ) (h : z.length = 2 * Nc) :
    ∃ w, real_to_complex z = some w ∧ w.length = Nc := by
  refine ⟨_, real_to_complex_even z (by omega), ?_⟩
  simp only [List.length_zipWith, List.length_take, List.length_drop, h]
  omega

lemma buildC_some (x : List ℝ) (Nc Np : ℕ) (hx : x.length = Np + 2 * Nc * Np) :
    ∀ n, n ≤ Np → n ≤ Nc → ∃ c, buildC x Nc Np n = some c ∧ c.length = Nc := by
  intro n
  induction n with
  | zero => exact fun _ _ => ⟨zeros2 Nc, rfl, by simp [zeros2]⟩
  | succ n ih =>
    intro h1 h2
    obtain ⟨c, hc, hlen⟩ := ih (by omega) (by omega)
    obtain ⟨row, hrow, _⟩ := real_to_complex_length (stateSlice x Nc Np n) Nc
      (length_stateSlice x Nc Np n hx (by omega))
    have hset : setRow c n row = some (c.set n row) := by
      unfold setRow
      rw [hlen]
      exact if_pos (by omega)
    exact ⟨c.set n row, by simp [buildC, hc, hrow, hset], by simp [hlen]⟩

lemma buildC_none_succ (x : List ℝ) (Nc Np n : ℕ) (h : buildC x Nc Np n = none) :
    buildC x Nc Np (n + 1) = none := by
  simp [buildC, h]

lemma buildC_none_mono (x : List ℝ) (Nc Np : ℕ) {n m : ℕ} (hnm : n ≤ m)
    (h : buildC x Nc Np n = none) : buildC x Nc Np m = none := by
  induction m with
  | zero => exact (Nat.le_zero.mp hnm) ▸ h
  | succ m ih =>
    rcases Nat.lt_or_ge n (m + 1) with hlt | hge
    · exact buildC_none_succ x Nc Np m (ih (by omega))
    · have he : n = m + 1 := by omega
      exact he ▸ h

lemma buildC_fail (x : List ℝ) (Nc Np : ℕ) (hx : x.length = Np + 2 * Nc * Np)
    (hlt : Nc < Np) : buildC x Nc Np Np = none := by
  obtain ⟨c, hc, hlen⟩ := buildC_some x Nc Np hx Nc (by omega) le_rfl
  have hstep : buildC x Nc Np (Nc + 1) = none := by
    obtain ⟨row, hrow, _⟩ := real_to_complex_length (stateSlice x Nc Np Nc) Nc
      (length_stateSlice x Nc Np Nc hx (by omega))
    have hset : setRow c Nc row = none := by
      unfold setRow
      rw [hlen]
      exact if_neg (by omega)
    simp [buildC, hc, hrow, hset]
  exact buildC_none_mono x Nc Np (by omega) hstep

/-- C9: with a parameter vector of the expected length Np + 2*Nc*Np, the
reconstruction residual cons3 is well-defined (all indexing in bounds, so
isSome) exactly when Np ≤ Nc; for Np > Nc the row assignment fails on an
out-of-range row index. -/
theorem C9_cons3_welldef (rho : ℕ → ℕ → ℂ) (x : List ℝ) (Nc Np : ℕ)
    (hx : x.length = Np + 2 * Nc * Np) :
    (cons3 rho x Nc Np).isSome ↔ Np ≤ Nc := by
  constructor
  · intro h
    by_contra hlt
    push_neg at hlt
    unfold cons3 at h
    rw [buildC_fail x Nc Np hx hlt] at h
    simp at h
  · intro hNp
    obtain ⟨c, hc, _⟩ := buildC_some x Nc Np hx Np le_rfl hNp
    unfold cons3
    rw [hc]
    simp

/-- Witness for C9 at Nc = Np = 1 and the zero parameter vector. -/
theorem C9_witness :
    ((0 : ℝ) :: 0 :: 0 :: []).length = 1 + 2 * 1 * 1 ∧
    ((cons3 (fun _ _ => 0) ((0 : ℝ) :: 0 :: 0 :: []) 1 1).isSome ↔ 1 ≤ 1) :=
  ⟨by decide, C9_cons3_welldef _ _ 1 1 (by decide)⟩

lemma complex_to_real_length (w : List ℂ) : (complex_to_real w).length = 2 * w.length := by
  simp [complex_to_real]
  omega

lemma flatten_chunk (L : ℕ) :
    ∀ (ls : List (List ℝ)) (k : ℕ), (∀ l ∈ ls, l.length = L) → k < ls.length →
      (ls.flatten.drop (k * L)).take L = ls.getD k [] := by
  intro ls
  induction ls with
  | nil => intro k _ hk; exact absurd hk (by simp)
  | cons hd tl ih =>
    intro k hlen hk
    cases k with
    | zero =>
      have hhd : hd.length = L := hlen hd (by simp)
      simp only [Nat.zero_mul, List.drop_zero, List.flatten_cons, List.getD_cons_zero]
      rw [← hhd, List.take_left]
    | succ k =>
      have hhd : hd.length = L := hlen hd (by simp)
      have harith : (k + 1) * L = hd.length + k * L := by rw [hhd]; ring
      rw [List.flatten_cons, harith, List.drop_append, List.getD_cons_succ]
      exact ih k (fun l hl => hlen l (by simp [hl])) (by simpa using hk)

lemma stateSlice_encode (ps : List ℝ) (cs : List (List ℂ)) (Nc Np k : ℕ)
    (hps : ps.length = Np) (hlen : ∀ c ∈ cs, c.length = Nc) (hk : k < cs.length) :
    stateSlice (encode ps cs) Nc Np k = complex_to_real (cs.getD k []) := by
  unfold stateSlice encode
  have h1 : Np + k * (2 * Nc) = ps.length + k * (2 * Nc) := by rw [hps]
  rw [h1, List.drop_append]
  have h2 : ∀ l ∈ cs.map complex_to_real, l.length = 2 * Nc := by
    intro l hl
    obtain ⟨w, hw, rfl⟩ := List.mem_map.mp hl
    rw [complex_to_real_length, hlen w hw]
  have h3 : k < (cs.map complex_to_real).length := by simpa using hk
  rw [flatten_chunk (2 * Nc) (cs.map complex_to_real) k h2 h3]
  rw [getD_eq_get _ _ h3, getD_eq_get _ _ hk, List.getElem_map]

lemma buildC_encode (ps : List ℝ) (cs : List (List ℂ)) (Nc Np : ℕ)
    (hps : ps.length = Np) (hcs : cs.length = Np)
    (hlen : ∀ c ∈ cs, c.length = Nc) (hNp : Np ≤ Nc) :
    ∀ n, n ≤ Np → ∃ c, buildC (encode ps cs) Nc Np n = some c ∧ c.length = Nc ∧
      ∀ k, k < n → c.getD k [] = cs.getD k [] := by
  intro n
  induction n with
  | zero =>
    exact fun _ => ⟨zeros2 Nc, rfl, by simp [zeros2], fun k hk => absurd hk (by omega)⟩
  | succ n ih =>
    intro hn
    obtain ⟨c, hc, hclen, hrows⟩ := ih (by omega)
    have hslice : stateSlice (encode ps cs) Nc Np n = complex_to_real (cs.getD n []) :=
      stateSlice_encode ps cs Nc Np n hps hlen (by omega)
    have hrow : real_to_complex (stateSlice (encode ps cs) Nc Np n) = some (cs.getD n []) := by
      rw [hslice]
      exact real_to_complex_complex_to_real _
    have hset : setRow c n (cs.getD n []) = some (c.set n (cs.getD n [])) := by
      unfold setRow
      rw [hclen]
      exact if_pos (by omega)
    refine ⟨c.set n (cs.getD n []), ?_, by simp [hclen], ?_⟩
    · simp only [buildC, hc, hrow]
      simpa using hset
    intro k hk
    have hkc : k < (c.set n (cs.getD n [])).length := by
      simp only [List.length_set, hclen]
      omega
    rcases Nat.lt_or_ge k n with hlt | hge
    · rw [getD_eq_get _ [] hkc, List.getElem_set_ne (by omega : n ≠ k)]
      rw [← getD_eq_get c [] (by omega : k < c.length)]
      exact hrows k hlt
    · have hkn : k = n := by omega
      subst hkn
      rw [getD_eq_get _ [] hkc, List.getElem_set_self]

/-- C5: when the target rho is itself the weighted sum of outer products of
the encoded states, every entry of the reconstruction residual cons3 at the
encoding parameter vector is zero: the result is the zero vector of length
2*Nc^2. -/
theorem C5_cons3_zero (Nc Np : ℕ) (ps : List ℝ) (cs : List (List ℂ))
    (rho : ℕ → ℕ → ℂ)
    (hps : ps.length = Np) (hcs : cs.length = Np)
    (hlen : ∀ c ∈ cs, c.length = Nc) (hNp : Np ≤ Nc)
    (_hw1 : ∀ p ∈ ps, 0 ≤ p) (_hw2 : ps.sum = 1)
    (_hnorm : ∀ c ∈ cs, (c.map Complex.normSq).sum = 1)
    (hrho : ∀ i < Nc, ∀ j < Nc, rho i j =
      (((List.range Np).map fun k => ((ps.getD k 0 : ℝ) : ℂ) *
        (cs.getD k []).getD i 0 * npConj ((cs.getD k []).getD j 0)).sum)) :
    cons3 rho (encode ps cs) Nc Np = some (List.replicate (2 * Nc ^ 2) 0) := by
  obtain ⟨c, hc, hclen, hrows⟩ := buildC_encode ps cs Nc Np hps hcs hlen hNp Np le_rfl
  have hp : (encode ps cs).take Np = ps := by
    unfold encode
    exact List.take_left' hps
  have hres : ∀ i < Nc, ∀ j < Nc, resEntry ((encode ps cs).take Np) c rho Np i j = 0 := by
    intro i hi j hj
    unfold resEntry
    rw [hp, hrho i hi j hj, sub_eq_zero]
    congr 1
    apply List.map_congr_left
    intro k hk
    rw [List.mem_range] at hk
    rw [hrows k hk]
  unfold cons3
  rw [hc, Option.map_some']
  congr 1
  apply List.eq_replicate_iff.mpr
  constructor
  · simp only [List.length_append, List.length_flatMap, List.map_map,
      Function.comp_def, List.length_map, List.length_range, List.map_const',
      List.sum_replicate, smul_eq_mul]
    ring
  · intro b hb
    rw [List.mem_append] at hb
    rcases hb with hb | hb <;>
    · rw [List.mem_flatMap] at hb
      obtain ⟨i, hi, hb⟩ := hb
      rw [List.mem_map] at hb
      obtain ⟨j, hj, rfl⟩ := hb
      rw [hres i (List.mem_range.mp hi) j (List.mem_range.mp hj)]
      simp

/-- Witness for C5 at Np = Nc = 1, weight vector [1], single state [1] and
rho the constant-one 1x1 matrix. -/
theorem C5_witness :
    ((1 : ℝ) :: []).length = 1 ∧
    (((1 : ℂ) :: []) :: []).length = 1 ∧
    (∀ c ∈ ((1 : ℂ) :: []) :: [], c.length = 1) ∧
    1 ≤ 1 ∧
    (∀ p ∈ (1 : ℝ) :: [], 0 ≤ p) ∧
    ((1 : ℝ) :: []).sum = 1 ∧
    (∀ c ∈ ((1 : ℂ) :: []) :: [], (c.map Complex.normSq).sum = 1) ∧
    (∀ i < 1, ∀ j < 1, (fun (_ _ : ℕ) => (1 : ℂ)) i j =
      (((List.range 1).map fun k => ((((1 : ℝ) :: []).getD k 0 : ℝ) : ℂ) *
        (((((1 : ℂ) :: []) :: []).getD k []).getD i 0) *
        npConj (((((1 : ℂ) :: []) :: []).getD k []).getD j 0)).sum)) ∧
    cons3 (fun _ _ => (1 : ℂ)) (encode ((1 : ℝ) :: []) (((1 : ℂ) :: []) :: [])) 1 1
      = some (List.replicate (2 * 1 ^ 2) 0) := by
  have hlen : ∀ c ∈ ((1 : ℂ) :: []) :: [], c.length = 1 := by
    intro c hc
    rw [List.mem_singleton] at hc
    subst hc
    rfl
  have hw1 : ∀ p ∈ (1 : ℝ) :: [], 0 ≤ p := by
    intro p hp
    rw [List.mem_singleton] at hp
    subst hp
    norm_num
  have hw2 : ((1 : ℝ) :: []).sum = 1 := by simp
  have hnorm : ∀ c ∈ ((1 : ℂ) :: []) :: [], (c.map Complex.normSq).sum = 1 := by
    intro c hc
    rw [List.mem_singleton] at hc
    subst hc
    simp
  have hrho : ∀ i < 1, ∀ j < 1, (fun (_ _ : ℕ) => (1 : ℂ)) i j =
      (((List.range 1).map fun k => ((((1 : ℝ) :: []).getD k 0 : ℝ) : ℂ) *
        (((((1 : ℂ) :: []) :: []).getD k []).getD i 0) *
        npConj (((((1 : ℂ) :: []) :: []).getD k []).getD j 0)).sum) := by
    intro i hi j hj
    have hi0 : i = 0 := by omega
    have hj0 : j = 0 := by omega
    subst hi0
    subst hj0
    simp [List.range_succ, npConj, Complex.ext_iff]
  exact ⟨rfl, rfl, hlen, le_rfl, hw1, hw2, hnorm, hrho,
    C5_cons3_zero 1 1 ((1 : ℝ) :: []) (((1 : ℂ) :: []) :: []) (fun _ _ => (1 : ℂ))
      rfl rfl hlen le_rfl hw1 hw2 hnorm hrho⟩

end ThreeTangle
